import Mathlib

/-!
# Verification of the e-paper rendering core

Shallow embedding of the raster/codec/text-layout core of the
`epaper-pi-zero-2w` repository, together with proofs checking the
natural-language specification against the code.

Embedded sources:
* `examples/03_display_image.py` : `image_to_epd_bytes` (device codec);
* `examples/epd_helper.py`       : `EPDCanvas.pixel`, `load_font`, `FONT_REGISTRY`;
* `examples/landscape_helper.py` : `LandscapeEPDCanvas.render_text`, `_wrap_text`.

Python integers are modelled by `Int`/`Nat`, Python floats by exact
rationals, Python strings by Lean strings (sequences of characters,
matching Python character-based slicing and length).
-/

namespace EPD

/-! ## Device codec (`image_to_epd_bytes`, examples/03_display_image.py)

The Python function receives `list(image.getdata())` for a 1-bit PIL
image: a flat row-major list of pixel values, each `0` (black) or `255`
(white).  It packs consecutive groups of 8 pixels into one byte, setting
bit `7 - j` for a black pixel at group offset `j`, and finally inverts
every byte with `byte ^ 0xFF`. -/

/-- One step of the inner `for j in range(8)` loop of `image_to_epd_bytes`:
`if i + j < len(pixels) and pixels[i + j] == 0: byte |= (0x80 >> j)`.
`chunk` is the (at most 8 element) pixel group starting at `i`. -/
def packBit (chunk : List Nat) (b : Nat) (j : Nat) : Nat :=
  match chunk[j]? with
  | some p => if p = 0 then b ||| (128 >>> j) else b
  | none => b

/-- One byte of the packed output: accumulate the 8 bit tests, then
`byte ^ 0xFF` (the final inversion of `image_to_epd_bytes`). -/
def packByte (chunk : List Nat) : Nat :=
  ((List.range 8).foldl (packBit chunk) 0) ^^^ 255

/-- The grouping `for i in range(0, len(pixels), 8)` of the pixel list
into chunks of (at most) 8 consecutive pixels. -/
def chunks8 (l : List Nat) : List (List Nat) :=
  if h : l = [] then [] else l.take 8 :: chunks8 (l.drop 8)
termination_by l.length
decreasing_by
  simp only [List.length_drop]
  have : l.length ≠ 0 := fun h0 => h (List.length_eq_zero.mp h0)
  omega

/-- `image_to_epd_bytes` of examples/03_display_image.py, applied to the
flat row-major pixel list of the (already resized and 1-bit converted)
image. -/
def image_to_epd_bytes (pixels : List Nat) : List Nat :=
  (chunks8 pixels).map packByte

/-- The flat row-major pixel list `list(image.getdata())` of a `W`-wide,
`H`-tall image whose pixel value at `(x, y)` is `f x y`: entry `p` of the
list is the pixel at `x = p % W`, `y = p / W`. -/
def pixelsOf (W H : Nat) (f : Nat → Nat → Nat) : List Nat :=
  (List.range (W * H)).map (fun p => f (p % W) (p / W))

/-- The exact inverse of the packing performed by `image_to_epd_bytes`:
pixel `p` of an `n`-pixel image is white (`255`) iff bit `7 - p % 8` of
byte `p / 8` is set. -/
def epd_decode (n : Nat) (bytes : List Nat) : List Nat :=
  (List.range n).map (fun p =>
    if (bytes.getD (p / 8) 0).testBit (7 - p % 8) then 255 else 0)

theorem chunks8_nil : chunks8 [] = [] := by
  rw [chunks8]
  simp

theorem chunks8_cons (l : List Nat) (h : l ≠ []) :
    chunks8 l = l.take 8 :: chunks8 (l.drop 8) := by
  rw [chunks8]
  simp [h]

/-- The number of chunks is the number of pixels divided by 8, rounded up. -/
theorem chunks8_length (l : List Nat) : (chunks8 l).length = (l.length + 7) / 8 := by
  by_cases h : l = []
  · subst h; simp [chunks8_nil]
  · rw [chunks8_cons l h]
    have ih := chunks8_length (l.drop 8)
    have hlen : l.length ≠ 0 := fun h0 => h (List.length_eq_zero.mp h0)
    simp only [List.length_cons, ih, List.length_drop]
    omega
termination_by l.length
decreasing_by
  simp only [List.length_drop]
  have : l.length ≠ 0 := fun h0 => h (List.length_eq_zero.mp h0)
  omega

/-- Chunk `i` is the 8-pixel slice starting at pixel `8 * i`. -/
theorem chunks8_getElem? (l : List Nat) (i : Nat) :
    (chunks8 l)[i]? =
      if 8 * i < l.length then some ((l.drop (8 * i)).take 8) else none := by
  by_cases h : l = []
  · subst h; simp [chunks8_nil]
  · rw [chunks8_cons l h]
    match i with
    | 0 =>
      have hlen : l.length ≠ 0 := fun h0 => h (List.length_eq_zero.mp h0)
      simp only [List.getElem?_cons_zero, Nat.mul_zero, List.drop_zero]
      rw [if_pos (by omega)]
    | i + 1 =>
      have ih := chunks8_getElem? (l.drop 8) i
      simp only [List.getElem?_cons_succ, ih, List.length_drop, List.drop_drop]
      have harith : 8 + 8 * i = 8 * (i + 1) := by ring
      rw [harith]
      by_cases hc : 8 * (i + 1) < l.length
      · rw [if_pos (by omega), if_pos hc]
      · rw [if_neg (by omega), if_neg hc]
termination_by l.length
decreasing_by
  simp only [List.length_drop]
  have : l.length ≠ 0 := fun h0 => h (List.length_eq_zero.mp h0)
  omega

/-- Each `|=` step of the inner loop sets exactly the bit named by its
shift, so the accumulated byte tests a bit iff some visited group offset
contributed it. -/
theorem testBit_foldl_packBit (chunk : List Nat) (js : List Nat) (b : Nat) (k : Nat) :
    (js.foldl (packBit chunk) b).testBit k =
      (b.testBit k || js.any fun j => decide (chunk[j]? = some 0) && Nat.testBit 128 (j + k)) := by
  induction js generalizing b with
  | nil => simp
  | cons j js ih =>
    simp only [List.foldl_cons, List.any_cons, ih]
    have hstep : (packBit chunk b j).testBit k =
        (b.testBit k || (decide (chunk[j]? = some 0) && Nat.testBit 128 (j + k))) := by
      cases h : chunk[j]? with
      | none => simp [packBit, h]
      | some p =>
        by_cases hp : p = 0
        · subst hp
          simp [packBit, h, Nat.testBit_or, Nat.testBit_shiftRight]
        · simp [packBit, h, hp]
    rw [hstep, Bool.or_assoc]

/-- Bit `k < 8` of a packed byte is clear exactly when the pixel at group
offset `7 - k` is black: the bit order inside a byte is most significant
bit first, and the final inversion makes black `0` and white `1`. -/
theorem testBit_packByte (chunk : List Nat) (k : Nat) (hk : k < 8) :
    (packByte chunk).testBit k = !decide (chunk[7 - k]? = some 0) := by
  unfold packByte
  rw [Nat.testBit_xor, testBit_foldl_packBit]
  have hbit : ∀ m : Nat, Nat.testBit 128 m = decide (m = 7) := by
    intro m
    rw [show (128 : Nat) = 2 ^ 7 by norm_num]
    rw [Nat.testBit_two_pow]
    simp [eq_comm]
  have h255 : Nat.testBit 255 k = true := by
    rw [show (255 : Nat) = 2 ^ 8 - 1 by norm_num, Nat.testBit_two_pow_sub_one]
    simpa using hk
  have hrange : List.range 8 = [0, 1, 2, 3, 4, 5, 6, 7] := rfl
  rw [h255, hrange]
  simp only [List.any_cons, List.any_nil, hbit, Nat.zero_testBit, Bool.false_or]
  interval_cases k <;> simp

/-- Decoding with the exact inverse mapping reproduces the pixel list,
provided every pixel value is `0` (black) or `255` (white), as holds for
a 1-bit PIL image. -/
theorem epd_roundtrip (pixels : List Nat) (h : ∀ v ∈ pixels, v = 0 ∨ v = 255) :
    epd_decode pixels.length (image_to_epd_bytes pixels) = pixels := by
  apply List.ext_getElem?
  intro p
  unfold epd_decode
  by_cases hp : p < pixels.length
  · rw [List.getElem?_map, List.getElem?_range hp]
    simp only [Option.map_some']
    have hchunk : (image_to_epd_bytes pixels)[p / 8]? =
        some (packByte ((pixels.drop (8 * (p / 8))).take 8)) := by
      unfold image_to_epd_bytes
      rw [List.getElem?_map, chunks8_getElem?, if_pos (by omega)]
      rfl
    have hgetD : (image_to_epd_bytes pixels).getD (p / 8) 0 =
        packByte ((pixels.drop (8 * (p / 8))).take 8) := by
      rw [List.getD_eq_getElem?_getD, hchunk]
      rfl
    rw [hgetD, testBit_packByte _ _ (by omega)]
    have hidx : 7 - (7 - p % 8) = p % 8 := by omega
    rw [hidx]
    have hcell : ((pixels.drop (8 * (p / 8))).take 8)[p % 8]? = pixels[p]? := by
      rw [List.getElem?_take_of_lt (by omega), List.getElem?_drop]
      congr 1
      omega
    rw [hcell]
    have hmem : pixels[p] ∈ pixels := List.getElem_mem hp
    have hval := h _ hmem
    rw [List.getElem?_eq_getElem hp]
    rcases hval with hv | hv <;> rw [hv] <;> simp
  · rw [List.getElem?_map]
    rw [List.getElem?_eq_none (by simp; omega),
      List.getElem?_eq_none (by omega)]
    rfl

/-- Claim C2: the device encoding is a total function; decoding the byte
sequence with the exact inverse mapping reproduces the original 1-bit
pixel pattern, and on images of fixed length the encoding is injective. -/
theorem C2_codec_roundtrip_injective (p1 p2 : List Nat)
    (h1 : ∀ v ∈ p1, v = 0 ∨ v = 255) (h2 : ∀ v ∈ p2, v = 0 ∨ v = 255) :
    epd_decode p1.length (image_to_epd_bytes p1) = p1 ∧
    (p1.length = p2.length → image_to_epd_bytes p1 = image_to_epd_bytes p2 → p1 = p2) := by
  refine ⟨epd_roundtrip p1 h1, fun hlen henc => ?_⟩
  have hr1 := epd_roundtrip p1 h1
  have hr2 := epd_roundtrip p2 h2
  rw [← hr1, ← hr2, hlen, henc]

theorem C2_codec_roundtrip_injective_witness :
    (∀ v ∈ [0, 255, 255, 0, 255], v = 0 ∨ v = 255) ∧
    epd_decode 5 (image_to_epd_bytes [0, 255, 255, 0, 255]) = [0, 255, 255, 0, 255] :=
  ⟨by decide,
    (C2_codec_roundtrip_injective [0, 255, 255, 0, 255] [0, 255, 255, 0, 255]
      (by decide) (by decide)).1⟩

/-- Claim C1 evaluated at the device dimensions: `image_to_epd_bytes`
packs the flat row-major pixel list into `ceil(W * H / 8)` bytes, which
for the 122 x 250 physical store is 3813 bytes — not the
`ceil(W / 8) * H = 4000` bytes the claim (and the hardware frame written
by src/src/test_display.py) requires. -/
theorem C1_encode_length_mismatch :
    (image_to_epd_bytes (pixelsOf 122 250 fun _ _ => 255)).length = 3813 ∧
    ((122 + 7) / 8) * 250 = 4000 ∧ (3813 : Nat) ≠ 4000 := by
  refine ⟨?_, by norm_num, by norm_num⟩
  unfold image_to_epd_bytes pixelsOf
  rw [List.length_map, chunks8_length, List.length_map, List.length_range]

/-! ## Text layout engine (examples/landscape_helper.py)

`LandscapeEPDCanvas` fixes the logical canvas to 250 x 122 pixels.
Font metrics are external (PIL): a `Font` value abstracts the measured
pixel width of a string (`getbbox`/`getsize`) and the measured height,
which `render_text` only queries on the probe string `"Ay"`.
Python floats are modelled by exact rationals, Python `int()` by
truncation toward zero, Python `//` by floor division. -/

/-- The whitespace characters of Python `str.split()` / `str.strip()`. -/
def pyIsSpace (c : Char) : Bool :=
  c = ' ' || c = '\t' || c = '\n' || c = '\r' || c = '\x0b' || c = '\x0c'

/-- Split a character list at every character satisfying `p`, keeping
empty segments (the behaviour of Python `str.split(sep)`). -/
def splitPred (p : Char → Bool) : List Char → List (List Char)
  | [] => [[]]
  | a :: rest =>
    match splitPred p rest with
    | [] => [[]]
    | g :: gs => if p a then [] :: g :: gs else (a :: g) :: gs

/-- Python `s.split()`: split on whitespace runs, discarding empties. -/
def pySplit (s : String) : List String :=
  ((splitPred pyIsSpace s.data).map String.mk).filter (fun t => t ≠ "")

/-- Python `s.split(chr(10))`: the paragraphs of `_wrap_text`. -/
def pyLines (s : String) : List String :=
  (splitPred (fun c => c = '\n') s.data).map String.mk

/-- Python `" ".join(ws)`. -/
def joinSpace : List String → String
  | [] => ""
  | [w] => w
  | w :: ws => w ++ " " ++ joinSpace ws

/-- Python `not s or not s.strip()`: empty or whitespace-only. -/
def isBlank (s : String) : Bool := s.data.all pyIsSpace

/-- Python slicing `s[:n]` for `n ≥ 0` (character based). -/
def pyTake (s : String) (n : Nat) : String := String.mk (s.data.take n)

/-- The `while len(current_line) > 3` character-shrinking loop of
`_wrap_text` for a single word wider than `max_width`.  The word still
to be shrunk is carried with its characters reversed so that dropping
the trailing character is structural. -/
def truncLongWordAux (f : String → Nat) (avail : Int) : List Char → String
  | [] => ""
  | c :: rcs =>
    if (String.mk ((c :: rcs).reverse)).length > 3 then
      if (f (String.mk rcs.reverse ++ "...") : Int) ≤ avail then String.mk rcs.reverse ++ "..."
      else truncLongWordAux f avail rcs
    else String.mk ((c :: rcs).reverse)

/-- Character truncation of an over-wide word (lines 233-245 of
landscape_helper.py): repeatedly drop the last character; as soon as the
shortened word plus `"..."` fits, emit that; if the word is down to 3
characters without a fit, emit it as-is (without ellipsis). -/
def truncLongWord (f : String → Nat) (avail : Int) (word : String) : String :=
  truncLongWordAux f avail word.data.reverse

/-- The `while True` word-removal loop of `render_text` (lines 77-95):
`line` is the current candidate for the last kept line and `rws` its
whitespace-split words, reversed (the loop drops the last word, which is
structural on the reversed list; rejoining with single spaces makes the
recomputed split of the Python code equal to the carried list). -/
def truncWordsAux (f : String → Nat) (avail : Int) : String → List String → String
  | line, rws =>
    if (f (line ++ "...") : Int) ≤ avail then line ++ "..."
    else
      match rws with
      | [] => pyTake line (line.length - 3) ++ "..."
      | [_] => pyTake line (line.length - 3) ++ "..."
      | _ :: rest => truncWordsAux f avail (joinSpace rest.reverse) rest

/-- Ellipsis truncation of the last kept line in `render_text`: append
`"..."` if it fits, otherwise drop trailing words one at a time; when a
single word is left, drop its last 3 characters and append `"..."`
regardless of fit. -/
def truncLastLine (f : String → Nat) (avail : Int) (line : String) : String :=
  truncWordsAux f avail line (pySplit line).reverse

/-- The greedy word loop of `_wrap_text` (lines 200-245): `current` is
the accumulated line. A word extending the accumulation within
`max_width` is appended; an overflowing word flushes a non-empty
accumulation and starts the next line; an overflowing word at the start
of a line is kept and character-truncated if it alone exceeds the width. -/
def wrapWords (f : String → Nat) (avail : Int) : String → List String → List String
  | current, [] => if current ≠ "" then [current] else []
  | current, word :: rest =>
    let test := if current = "" then word else current ++ " " ++ word
    if (f test : Int) ≤ avail then wrapWords f avail test rest
    else if current ≠ "" then current :: wrapWords f avail word rest
    else
      let cur := if (f word : Int) > avail then truncLongWord f avail word else word
      wrapWords f avail cur rest

/-- `LandscapeEPDCanvas._wrap_text`: split into paragraphs on newlines;
a blank paragraph emits one empty line; a non-blank paragraph is wrapped
greedily word by word. -/
def wrapText (f : String → Nat) (avail : Int) (text : String) : List String :=
  (pyLines text).foldl
    (fun lines para =>
      if isBlank para then lines ++ [""]
      else
        match pySplit para with
        | [] => lines
        | ws => lines ++ wrapWords f avail "" ws) []

/-- External font metrics: measured pixel width of a string and measured
pixel height (only queried on the probe string `"Ay"`). -/
structure Font where
  w : String → Nat
  h : String → Nat

/-- The observable outcome of `render_text`: the returned metadata
(`lines`, `truncated`, `text_height`) plus the list of text draw calls
`(h_offset, y_pos, line)` issued to the canvas. -/
structure RenderOut where
  lines : Nat
  truncated : Bool
  textHeight : Int
  draws : List (Int × Int × String)
deriving DecidableEq, Repr

def validH : List String := ["left", "center", "right"]

def validV : List String := ["top", "middle", "bottom"]

/-- Lines 73-97 of landscape_helper.py: when the wrap produced more than
`max_lines` lines, keep the first `max_lines` and ellipsis-truncate the
last kept one.  Python raises IndexError when `max_lines = 0` (an empty
slice is indexed at `[-1]`); the `getLastD` default is never reached in
any theorem below, all of which assume `1 ≤ max_lines`. -/
def truncateLines (f : String → Nat) (avail : Int) (maxLines : Nat)
    (wrapped : List String) : List String × Bool :=
  if wrapped.length > maxLines then
    let kept := wrapped.take maxLines
    (kept.dropLast ++ [truncLastLine f avail (kept.getLastD "")], true)
  else (wrapped, false)

/-- `line_height = int((bbox height of the probe "Ay") * line_spacing)`:
the `line_spacing` multiplier is the exact rational `lsn / lsd` (with
`lsd > 0`; the default 1.2 is 6 / 5), and Python `int()` truncates the
product toward zero, which on integers is `Int.tdiv`. -/
def lineHeight (font : Font) (lsn lsd : Int) : Int :=
  Int.tdiv ((font.h "Ay" : Int) * lsn) lsd

/-- Horizontal offset of one rendered line of measured width `lw`. -/
def hOffset (ah : String) (margin : Int) (lw : Int) : Int :=
  if ah = "left" then margin
  else if ah = "right" then 250 - lw - margin
  else Int.fdiv (250 - lw) 2

/-- Vertical offset of the whole text block of total height `total`. -/
def vOffset (av : String) (margin : Int) (total : Int) : Int :=
  if av = "top" then margin
  else if av = "bottom" then 122 - total - margin
  else Int.fdiv (122 - total) 2

/-- `LandscapeEPDCanvas.render_text`: alignment validation, empty-text
early return, wrap, `max_lines` truncation, and placement of each line. -/
def render_text (font : Font) (text : String) (ah av : String)
    (margin : Int) (lsn lsd : Int) (maxLines : Nat) : RenderOut :=
  let ah := if ah ∈ validH then ah else "center"
  let av := if av ∈ validV then av else "middle"
  if isBlank text then ⟨0, false, 0, []⟩
  else
    let avail : Int := 250 - 2 * margin
    let wt := truncateLines font.w avail maxLines (wrapText font.w avail text)
    let wrapped := wt.1
    let lh := lineHeight font lsn lsd
    let total : Int := (wrapped.length : Int) * lh
    let voff := vOffset av margin total
    let draws := wrapped.enum.map
      (fun pr => (hOffset ah margin (font.w pr.2 : Int), voff + (pr.1 : Int) * lh, pr.2))
    ⟨wrapped.length, wt.2, total, draws⟩

example : pySplit "aaaa b  cc" = ["aaaa", "b", "cc"] := by decide

example : pyLines "a\n\nb" = ["a", "", "b"] := by decide

example : wrapText (fun s => s.length) 8 "aaaa b cc" = ["aaaa b", "cc"] := by decide

example : wrapText (fun s => s.length) 8 "aaaaaaaaaa bb" = ["aaaaa...", "bb"] := by decide

example : truncLastLine (fun s => s.length) 8 "aaaa b" = "aaaa..." := by decide

example :
    render_text ⟨fun s => s.length, fun _ => 13⟩ "hi" "left" "top" 10 6 5 8 =
      ⟨1, false, 15, [(10, 10, "hi")]⟩ := by decide

example :
    render_text ⟨fun s => s.length, fun _ => 10⟩ "aaaa b cc" "center" "middle" 121 6 5 1 =
      ⟨1, true, 12, [(121, 55, "aaaa...")]⟩ := by decide

/-- Concrete font metrics used by witnesses and counterexamples: the
measured width of a string is its character count (a monospace advance
of one pixel) and every measured height is 13. -/
def monoFont : Font := ⟨fun s => s.length, fun _ => 13⟩

theorem splitPred_ne_nil (p : Char → Bool) (l : List Char) : splitPred p l ≠ [] := by
  cases l with
  | nil => simp [splitPred]
  | cons a rest =>
    unfold splitPred
    cases h : splitPred p rest with
    | nil => simp
    | cons g gs =>
      simp only [h]
      by_cases hp : p a <;> simp [hp]

theorem splitPred_eq_single (p : Char → Bool) (l : List Char)
    (h : ∀ c ∈ l, p c = false) : splitPred p l = [l] := by
  induction l with
  | nil => rfl
  | cons a rest ih =>
    have hrest : splitPred p rest = [rest] := ih (fun c hc => h c (List.mem_cons_of_mem a hc))
    have ha : p a = false := h a (List.mem_cons_self a rest)
    simp [splitPred, hrest, ha]

theorem pySplit_single (word : String) (hw : word.data ≠ [])
    (hns : ∀ c ∈ word.data, pyIsSpace c = false) : pySplit word = [word] := by
  unfold pySplit
  rw [splitPred_eq_single _ _ hns]
  have hne : word ≠ "" := by
    intro h
    rw [h] at hw
    exact hw rfl
  simp [hne]

theorem pyLines_single (word : String)
    (hns : ∀ c ∈ word.data, pyIsSpace c = false) : pyLines word = [word] := by
  unfold pyLines
  rw [splitPred_eq_single]
  · simp
  · intro c hc
    have hc2 := hns c hc
    by_cases h : c = '\n'
    · rw [h] at hc2
      exact absurd hc2 (by decide)
    · simp [h]

theorem isBlank_false_of (word : String) (hw : word.data ≠ [])
    (hns : ∀ c ∈ word.data, pyIsSpace c = false) : isBlank word = false := by
  unfold isBlank
  cases hd : word.data with
  | nil => exact absurd hd hw
  | cons a rest =>
    have ha : pyIsSpace a = false := hns a (by rw [hd]; exact List.mem_cons_self a rest)
    simp [ha]

/-- Claim C6: for every empty or whitespace-only text, `render_text`
returns zero lines, `truncated = false` and `text_height = 0`, and
issues no draw call, leaving the canvas unchanged. -/
theorem C6_blank_text_no_drawing (font : Font) (text : String) (ah av : String)
    (margin lsn lsd : Int) (maxLines : Nat) (h : isBlank text = true) :
    render_text font text ah av margin lsn lsd maxLines = ⟨0, false, 0, []⟩ := by
  unfold render_text
  simp [h]

theorem C6_blank_text_no_drawing_witness :
    isBlank "" = true ∧ isBlank " \n\t " = true ∧
    render_text monoFont "" "center" "middle" 10 6 5 8 = ⟨0, false, 0, []⟩ ∧
    render_text monoFont " \n\t " "left" "top" 10 6 5 8 = ⟨0, false, 0, []⟩ :=
  ⟨by decide, by decide,
    C6_blank_text_no_drawing monoFont "" "center" "middle" 10 6 5 8 (by decide),
    C6_blank_text_no_drawing monoFont " \n\t " "left" "top" 10 6 5 8 (by decide)⟩

/-- Claim C10: alignment values outside the accepted sets never raise;
they are silently replaced by the defaults, so the call renders exactly
as an explicit center/middle call. -/
theorem C10_invalid_alignment_defaults (font : Font) (text : String) (ah av : String)
    (margin lsn lsd : Int) (maxLines : Nat)
    (hh : ah ∉ validH) (hv : av ∉ validV) :
    render_text font text ah av margin lsn lsd maxLines =
      render_text font text "center" "middle" margin lsn lsd maxLines := by
  unfold render_text
  rw [if_neg hh, if_neg hv, if_pos (show "center" ∈ validH by decide),
    if_pos (show "middle" ∈ validV by decide)]

theorem C10_invalid_alignment_defaults_witness :
    ("justify" ∉ validH) ∧ ("baseline" ∉ validV) ∧
    render_text monoFont "hello world" "justify" "baseline" 10 6 5 8 =
      render_text monoFont "hello world" "center" "middle" 10 6 5 8 :=
  ⟨by decide, by decide,
    C10_invalid_alignment_defaults monoFont "hello world" "justify" "baseline" 10 6 5 8
      (by decide) (by decide)⟩

theorem render_text_unfold (font : Font) (text ah av : String)
    (margin lsn lsd : Int) (maxLines : Nat) (hb : isBlank text = false) :
    render_text font text ah av margin lsn lsd maxLines =
      ⟨(truncateLines font.w (250 - 2 * margin) maxLines
          (wrapText font.w (250 - 2 * margin) text)).1.length,
       (truncateLines font.w (250 - 2 * margin) maxLines
          (wrapText font.w (250 - 2 * margin) text)).2,
       ((truncateLines font.w (250 - 2 * margin) maxLines
          (wrapText font.w (250 - 2 * margin) text)).1.length : Int) *
         lineHeight font lsn lsd,
       (truncateLines font.w (250 - 2 * margin) maxLines
          (wrapText font.w (250 - 2 * margin) text)).1.enum.map
         (fun pr =>
           (hOffset (if ah ∈ validH then ah else "center") margin (font.w pr.2 : Int),
            vOffset (if av ∈ validV then av else "middle") margin
                (((truncateLines font.w (250 - 2 * margin) maxLines
                    (wrapText font.w (250 - 2 * margin) text)).1.length : Int) *
                  lineHeight font lsn lsd) +
              (pr.1 : Int) * lineHeight font lsn lsd,
            pr.2))⟩ := by
  unfold render_text
  rw [if_neg (by simp [hb])]

/-- The text components of the issued draw calls are exactly the final
(wrapped and possibly truncated) lines, in order. -/
theorem render_text_draw_texts (font : Font) (text ah av : String)
    (margin lsn lsd : Int) (maxLines : Nat) (hb : isBlank text = false) :
    (render_text font text ah av margin lsn lsd maxLines).draws.map (fun d => d.2.2) =
      (truncateLines font.w (250 - 2 * margin) maxLines
        (wrapText font.w (250 - 2 * margin) text)).1 := by
  rw [render_text_unfold font text ah av margin lsn lsd maxLines hb]
  simp only [List.map_map]
  have : ((fun d : Int × Int × String => d.2.2) ∘
      (fun pr : Nat × String =>
        ((hOffset (if ah ∈ validH then ah else "center") margin (font.w pr.2 : Int)),
          vOffset (if av ∈ validV then av else "middle") margin
              (((truncateLines font.w (250 - 2 * margin) maxLines
                  (wrapText font.w (250 - 2 * margin) text)).1.length : Int) *
                lineHeight font lsn lsd) +
            (pr.1 : Int) * lineHeight font lsn lsd,
          pr.2))) = fun pr : Nat × String => pr.2 := rfl
  rw [this, List.enum_map_snd]

theorem strData_mk (l : List Char) : (String.mk l).data = l := rfl

theorem strLength_mk (l : List Char) : (String.mk l).length = l.length := rfl

theorem strData_append (a b : String) : (a ++ b).data = a.data ++ b.data := rfl

theorem append_ellipsis_ne_empty (s : String) : s ++ "..." ≠ "" := by
  intro h
  have h2 := congrArg String.data h
  rw [strData_append] at h2
  have h3 := congrArg List.length h2
  simp at h3

theorem truncLongWordAux_ne_empty (f : String → Nat) (avail : Int) :
    ∀ rcs : List Char, rcs ≠ [] → truncLongWordAux f avail rcs ≠ ""
  | [], h => absurd rfl h
  | c :: rcs, _ => by
    unfold truncLongWordAux
    by_cases h3 : (String.mk ((c :: rcs).reverse)).length > 3
    · rw [if_pos h3]
      by_cases hf : (f (String.mk rcs.reverse ++ "...") : Int) ≤ avail
      · rw [if_pos hf]
        exact append_ellipsis_ne_empty _
      · rw [if_neg hf]
        have hrcs : rcs ≠ [] := by
          intro hh
          subst hh
          rw [strLength_mk] at h3
          simp at h3
        exact truncLongWordAux_ne_empty f avail rcs hrcs
    · rw [if_neg h3]
      intro hh
      have h2 := congrArg String.data hh
      rw [strData_mk] at h2
      simp at h2

theorem truncLongWord_ne_empty (f : String → Nat) (avail : Int) (word : String)
    (hw : word.data ≠ []) : truncLongWord f avail word ≠ "" := by
  unfold truncLongWord
  apply truncLongWordAux_ne_empty
  simp [hw]

/-- Claim C5, counterexample to the claim as stated: a single word wider
than the available width is wrapped into one character-truncated line,
but `truncated` is `false` — the flag is only set by the `max_lines`
check in `render_text`, never by the long-word truncation in
`_wrap_text`. Here width is measured as character count, margin 122
leaves 6 available pixels, and the 8-character word measures 8. -/
theorem C5_counterexample :
    (monoFont.w "abcdefgh" : Int) > 250 - 2 * 122 ∧
    render_text monoFont "abcdefgh" "center" "middle" 122 6 5 8 =
      ⟨1, false, 15, [(122, 53, "abc...")]⟩ ∧
    (render_text monoFont "abcdefgh" "center" "middle" 122 6 5 8).truncated ≠ true := by
  refine ⟨by decide, by decide, by decide⟩

/-- Claim C5 as amended: a single word (no whitespace characters) whose
measured width exceeds the available width is rendered as exactly one
line, with `truncated = false`; the drawn line is the word shortened
character by character with an appended ellipsis (or emitted without a
fitting ellipsis when no shortening down to 3 characters fits). -/
theorem C5_single_long_word (font : Font) (word : String) (ah av : String)
    (margin lsn lsd : Int) (maxLines : Nat)
    (hw : word.data ≠ [])
    (hns : ∀ c ∈ word.data, pyIsSpace c = false)
    (hwide : (font.w word : Int) > 250 - 2 * margin)
    (hml : 1 ≤ maxLines) :
    (render_text font word ah av margin lsn lsd maxLines).lines = 1 ∧
    (render_text font word ah av margin lsn lsd maxLines).truncated = false ∧
    (render_text font word ah av margin lsn lsd maxLines).draws.map (fun d => d.2.2) =
      [truncLongWord font.w (250 - 2 * margin) word] := by
  have hb : isBlank word = false := isBlank_false_of word hw hns
  have hwrap : wrapText font.w (250 - 2 * margin) word =
      [truncLongWord font.w (250 - 2 * margin) word] := by
    unfold wrapText
    rw [pyLines_single word hns]
    simp only [List.foldl_cons, List.foldl_nil, hb]
    rw [pySplit_single word hw hns]
    simp only [Bool.false_eq_true, if_false]
    have hno : ¬((font.w word : Int) ≤ 250 - 2 * margin) := by omega
    have hne := truncLongWord_ne_empty font.w (250 - 2 * margin) word hw
    simp [wrapWords, hno, hwide, hne]
  have htr : truncateLines font.w (250 - 2 * margin) maxLines
      (wrapText font.w (250 - 2 * margin) word) =
      ([truncLongWord font.w (250 - 2 * margin) word], false) := by
    rw [hwrap]
    unfold truncateLines
    rw [if_neg (by simp; omega)]
  refine ⟨?_, ?_, ?_⟩
  · rw [render_text_unfold font word ah av margin lsn lsd maxLines hb]
    simp [htr]
  · rw [render_text_unfold font word ah av margin lsn lsd maxLines hb]
    simp [htr]
  · rw [render_text_draw_texts font word ah av margin lsn lsd maxLines hb, htr]

theorem C5_single_long_word_witness :
    ("abcdefgh" : String).data ≠ [] ∧
    (∀ c ∈ ("abcdefgh" : String).data, pyIsSpace c = false) ∧
    (monoFont.w "abcdefgh" : Int) > 250 - 2 * 122 ∧
    (render_text monoFont "abcdefgh" "left" "top" 122 6 5 8).lines = 1 ∧
    (render_text monoFont "abcdefgh" "left" "top" 122 6 5 8).truncated = false ∧
    (render_text monoFont "abcdefgh" "left" "top" 122 6 5 8).draws.map (fun d => d.2.2) =
      [truncLongWord monoFont.w (250 - 2 * 122) "abcdefgh"] :=
  ⟨by decide, by decide, by decide,
    (C5_single_long_word monoFont "abcdefgh" "left" "top" 122 6 5 8
      (by decide) (by decide) (by decide) (by decide)).1,
    (C5_single_long_word monoFont "abcdefgh" "left" "top" 122 6 5 8
      (by decide) (by decide) (by decide) (by decide)).2.1,
    (C5_single_long_word monoFont "abcdefgh" "left" "top" 122 6 5 8
      (by decide) (by decide) (by decide) (by decide)).2.2⟩

/-- Modelled from the claim wording of C3 (and spec step 5): the last
kept line shortened by repeatedly removing one trailing character and
appending an ellipsis, remeasuring, until it fits, or until only 3
characters remain, at which point it is emitted as-is with the ellipsis
appended regardless of fit.  The characters of the line are carried
reversed, as in `truncLongWordAux`. -/
def specCharShrinkAux (f : String → Nat) (avail : Int) : List Char → String
  | [] => "..."
  | c :: rcs =>
    if (f (String.mk ((c :: rcs).reverse) ++ "...") : Int) ≤ avail then
      String.mk ((c :: rcs).reverse) ++ "..."
    else if (String.mk ((c :: rcs).reverse)).length ≤ 3 then
      String.mk ((c :: rcs).reverse) ++ "..."
    else specCharShrinkAux f avail rcs

/-- The character-by-character ellipsis shrinking procedure that claim
C3 attributes to the `max_lines` truncation of `render_text`. -/
def specCharShrink (f : String → Nat) (avail : Int) (line : String) : String :=
  specCharShrinkAux f avail line.data.reverse

/-- Every exit of the word-removal loop appends an ellipsis. -/
theorem truncWordsAux_ellipsis (f : String → Nat) (avail : Int) :
    ∀ (rws : List String) (line : String),
      ∃ s, truncWordsAux f avail line rws = s ++ "..."
  | [], line => by
    unfold truncWordsAux
    by_cases hf : (f (line ++ "...") : Int) ≤ avail
    · exact ⟨line, by rw [if_pos hf]⟩
    · exact ⟨pyTake line (line.length - 3), by rw [if_neg hf]⟩
  | [w], line => by
    unfold truncWordsAux
    by_cases hf : (f (line ++ "...") : Int) ≤ avail
    · exact ⟨line, by rw [if_pos hf]⟩
    · exact ⟨pyTake line (line.length - 3), by rw [if_neg hf]⟩
  | w :: w2 :: rest, line => by
    unfold truncWordsAux
    by_cases hf : (f (line ++ "...") : Int) ≤ avail
    · exact ⟨line, by rw [if_pos hf]⟩
    · rw [if_neg hf]
      exact truncWordsAux_ellipsis f avail (w2 :: rest) (joinSpace (w2 :: rest).reverse)

theorem truncLastLine_ellipsis (f : String → Nat) (avail : Int) (line : String) :
    ∃ s, truncLastLine f avail line = s ++ "..." :=
  truncWordsAux_ellipsis f avail (pySplit line).reverse line

/-- Claim C3, counterexample to the claim as stated: with width measured
as character count, 8 available pixels and `max_lines = 1`, the text
wraps to `["aaaa b", "cc"]`; `render_text` shortens the kept line
`"aaaa b"` by whole words and draws `"aaaa..."`, while the claimed
character-by-character shrinking would produce `"aaaa ..."` (the blank
before the ellipsis survives one character removal). -/
theorem C3_counterexample :
    isBlank "aaaa b cc" = false ∧
    1 < (wrapText monoFont.w (250 - 2 * 121) "aaaa b cc").length ∧
    ((wrapText monoFont.w (250 - 2 * 121) "aaaa b cc").take 1).getLastD "" = "aaaa b" ∧
    (render_text monoFont "aaaa b cc" "center" "middle" 121 6 5 1).draws.map
      (fun d => d.2.2) = ["aaaa..."] ∧
    specCharShrink monoFont.w (250 - 2 * 121) "aaaa b" = "aaaa ..." ∧
    ("aaaa..." : String) ≠ "aaaa ..." := by
  refine ⟨by decide, by decide, by decide, by decide, by decide, by decide⟩

/-- Claim C3 as amended: when the (non-blank) text wraps to more than
`max_lines` lines (`max_lines ≥ 1`), `render_text` keeps the first
`max_lines` lines and sets `truncated = true`; the last kept line is
shortened by repeatedly removing one trailing word and appending an
ellipsis, remeasuring, until it fits, or until a single word remains, at
which point the line minus its last 3 characters plus the ellipsis is
emitted regardless of fit; the returned line count is `max_lines` and
the last drawn line ends in the ellipsis. -/
theorem C3_maxlines_truncation (font : Font) (text ah av : String)
    (margin lsn lsd : Int) (maxLines : Nat)
    (hb : isBlank text = false)
    (hml : 1 ≤ maxLines)
    (hover : maxLines < (wrapText font.w (250 - 2 * margin) text).length) :
    (render_text font text ah av margin lsn lsd maxLines).lines = maxLines ∧
    (render_text font text ah av margin lsn lsd maxLines).truncated = true ∧
    (render_text font text ah av margin lsn lsd maxLines).draws.map (fun d => d.2.2) =
      ((wrapText font.w (250 - 2 * margin) text).take maxLines).dropLast ++
        [truncLastLine font.w (250 - 2 * margin)
          (((wrapText font.w (250 - 2 * margin) text).take maxLines).getLastD "")] ∧
    (∃ s, truncLastLine font.w (250 - 2 * margin)
        (((wrapText font.w (250 - 2 * margin) text).take maxLines).getLastD "") =
          s ++ "...") := by
  have htr : truncateLines font.w (250 - 2 * margin) maxLines
      (wrapText font.w (250 - 2 * margin) text) =
      (((wrapText font.w (250 - 2 * margin) text).take maxLines).dropLast ++
        [truncLastLine font.w (250 - 2 * margin)
          (((wrapText font.w (250 - 2 * margin) text).take maxLines).getLastD "")],
        true) := by
    unfold truncateLines
    rw [if_pos hover]
  refine ⟨?_, ?_, ?_, truncLastLine_ellipsis font.w (250 - 2 * margin) _⟩
  · rw [render_text_unfold font text ah av margin lsn lsd maxLines hb]
    simp only [htr]
    simp only [List.length_append, List.length_dropLast, List.length_take,
      List.length_cons, List.length_nil]
    omega
  · rw [render_text_unfold font text ah av margin lsn lsd maxLines hb]
    simp [htr]
  · rw [render_text_draw_texts font text ah av margin lsn lsd maxLines hb, htr]

theorem C3_maxlines_truncation_witness :
    isBlank "aaaa b cc" = false ∧ 1 ≤ 1 ∧
    1 < (wrapText monoFont.w (250 - 2 * 121) "aaaa b cc").length ∧
    (render_text monoFont "aaaa b cc" "center" "middle" 121 6 5 1).lines = 1 ∧
    (render_text monoFont "aaaa b cc" "center" "middle" 121 6 5 1).truncated = true ∧
    (∃ s, truncLastLine monoFont.w (250 - 2 * 121)
        (((wrapText monoFont.w (250 - 2 * 121) "aaaa b cc").take 1).getLastD "") =
          s ++ "...") :=
  ⟨by decide, by decide, by decide,
    (C3_maxlines_truncation monoFont "aaaa b cc" "center" "middle" 121 6 5 1
      (by decide) (by decide) (by decide)).1,
    (C3_maxlines_truncation monoFont "aaaa b cc" "center" "middle" 121 6 5 1
      (by decide) (by decide) (by decide)).2.1,
    (C3_maxlines_truncation monoFont "aaaa b cc" "center" "middle" 121 6 5 1
      (by decide) (by decide) (by decide)).2.2.2⟩

/-- Modelled from the claim wording of C4: greedy wrapping in which an
overflowing word always just flushes the accumulated line and starts the
next line, with no shortening of over-wide words. -/
def specGreedyWrap (f : String → Nat) (avail : Int) : String → List String → List String
  | acc, [] => if acc ≠ "" then [acc] else []
  | acc, word :: rest =>
    if (f (if acc = "" then word else acc ++ " " ++ word) : Int) ≤ avail then
      specGreedyWrap f avail (if acc = "" then word else acc ++ " " ++ word) rest
    else if acc ≠ "" then acc :: specGreedyWrap f avail word rest
    else specGreedyWrap f avail word rest

/-- Claim C4, counterexample to the claim as stated: with width measured
as character count and 8 available pixels, the paragraph
`"aaaaaaaaaa bb"` starts with a word wider than the line.  The claimed
procedure keeps the overflowing word intact, but `_wrap_text`
character-truncates a word that alone exceeds the width when it starts a
line, producing `"aaaaa..."`. -/
theorem C4_counterexample :
    wrapText monoFont.w 8 "aaaaaaaaaa bb" = ["aaaaa...", "bb"] ∧
    specGreedyWrap monoFont.w 8 "" (pySplit "aaaaaaaaaa bb") = ["aaaaaaaaaa", "bb"] ∧
    (["aaaaa...", "bb"] : List String) ≠ ["aaaaaaaaaa", "bb"] := by
  refine ⟨by decide, by decide, by decide⟩

/-- One step of the amended greedy wrap, in accumulator-passing form:
append the word if the extended line fits; otherwise flush a non-empty
accumulation and start the next line with the word unmodified; a word
overflowing an empty accumulation starts the line itself and is
character-truncated when it alone exceeds the available width. -/
def specWrapStep (f : String → Nat) (avail : Int) (st : List String × String)
    (word : String) : List String × String :=
  if (f (if st.2 = "" then word else st.2 ++ " " ++ word) : Int) ≤ avail then
    (st.1, if st.2 = "" then word else st.2 ++ " " ++ word)
  else if st.2 ≠ "" then (st.1 ++ [st.2], word)
  else (st.1, if (f word : Int) > avail then truncLongWord f avail word else word)

/-- The amended greedy wrap of one paragraph: fold the step over the
words, then flush a non-empty final accumulation. -/
def specWrapParagraph (f : String → Nat) (avail : Int) (ws : List String) : List String :=
  (ws.foldl (specWrapStep f avail) ([], "")).1 ++
    (if (ws.foldl (specWrapStep f avail) ([], "")).2 ≠ "" then
      [(ws.foldl (specWrapStep f avail) ([], "")).2] else [])

theorem wrapWords_eq_specFold (f : String → Nat) (avail : Int) :
    ∀ (ws : List String) (acc : String) (out : List String),
      out ++ wrapWords f avail acc ws =
        ((ws.foldl (specWrapStep f avail) (out, acc)).1 ++
          (if (ws.foldl (specWrapStep f avail) (out, acc)).2 ≠ "" then
            [(ws.foldl (specWrapStep f avail) (out, acc)).2] else []))
  | [], acc, out => by simp [wrapWords]
  | w :: ws, acc, out => by
    rw [List.foldl_cons]
    by_cases h1 : (f (if acc = "" then w else acc ++ " " ++ w) : Int) ≤ avail
    · have hstep : specWrapStep f avail (out, acc) w =
          (out, if acc = "" then w else acc ++ " " ++ w) := by
        unfold specWrapStep
        rw [if_pos h1]
      have hlhs : wrapWords f avail acc (w :: ws) =
          wrapWords f avail (if acc = "" then w else acc ++ " " ++ w) ws := by
        simp only [wrapWords]
        rw [if_pos h1]
      rw [hstep, hlhs]
      exact wrapWords_eq_specFold f avail ws _ out
    · by_cases h2 : acc ≠ ""
      · have hstep : specWrapStep f avail (out, acc) w = (out ++ [acc], w) := by
          unfold specWrapStep
          rw [if_neg h1, if_pos h2]
        have hlhs : wrapWords f avail acc (w :: ws) = acc :: wrapWords f avail w ws := by
          simp only [wrapWords]
          rw [if_neg h1, if_pos h2]
        rw [hstep, hlhs]
        have hassoc : out ++ acc :: wrapWords f avail w ws =
            (out ++ [acc]) ++ wrapWords f avail w ws := by
          simp
        rw [hassoc]
        exact wrapWords_eq_specFold f avail ws w (out ++ [acc])
      · have hstep : specWrapStep f avail (out, acc) w =
            (out, if (f w : Int) > avail then truncLongWord f avail w else w) := by
          unfold specWrapStep
          rw [if_neg h1, if_neg h2]
        have hlhs : wrapWords f avail acc (w :: ws) =
            wrapWords f avail (if (f w : Int) > avail then truncLongWord f avail w else w) ws := by
          simp only [wrapWords]
          rw [if_neg h1, if_neg h2]
        rw [hstep, hlhs]
        exact wrapWords_eq_specFold f avail ws _ out

theorem splitFilter_ne_nil (l : List Char) (c : Char) (hc : c ∈ l)
    (hcs : pyIsSpace c = false) :
    ((splitPred pyIsSpace l).map String.mk).filter (fun t => t ≠ "") ≠ [] := by
  induction l with
  | nil => cases hc
  | cons a rest ih =>
    obtain ⟨g, gs, hg⟩ : ∃ g gs, splitPred pyIsSpace rest = g :: gs := by
      cases h : splitPred pyIsSpace rest with
      | nil => exact absurd h (splitPred_ne_nil _ _)
      | cons g gs => exact ⟨g, gs, rfl⟩
    by_cases ha : pyIsSpace a
    · have hcr : c ∈ rest := by
        rcases List.mem_cons.mp hc with hca | hcr
        · rw [hca, ha] at hcs
          cases hcs
        · exact hcr
      have ih2 := ih hcr
      rw [hg] at ih2
      have hsplit : splitPred pyIsSpace (a :: rest) = [] :: g :: gs := by
        unfold splitPred
        rw [hg]
        simp [ha]
      rw [hsplit]
      intro hcon
      apply ih2
      simpa using hcon
    · simp only [splitPred, hg, if_neg ha, List.map_cons, List.filter_cons]
      have hne : String.mk (a :: g) ≠ "" := by
        intro h
        have h2 := congrArg String.data h
        rw [strData_mk] at h2
        cases h2
      simp [hne]

theorem pySplit_ne_nil (s : String) (hb : isBlank s = false) : pySplit s ≠ [] := by
  unfold isBlank at hb
  obtain ⟨c, hc, hcs⟩ := List.all_eq_false.mp hb
  exact splitFilter_ne_nil s.data c hc (Bool.not_eq_true _ ▸ eq_false_of_ne_true hcs)

theorem pyLines_single_of_no_newline (para : String) (hnl : '\n' ∉ para.data) :
    pyLines para = [para] := by
  unfold pyLines
  rw [splitPred_eq_single]
  · simp
  · intro c hc
    by_cases h : c = '\n'
    · rw [h] at hc
      exact absurd hc hnl
    · simp [h]

/-- Claim C4 as amended: for a non-blank single paragraph, the wrap is
the greedy accumulation in which a fitting word extends the line, an
overflowing word flushes a non-empty accumulation and starts the next
line unmodified, and an overflowing word at the start of a line is kept
there and character-truncated when it alone exceeds the available
width. -/
theorem C4_greedy_wrap_paragraph (f : String → Nat) (avail : Int) (para : String)
    (hb : isBlank para = false) (hnl : '\n' ∉ para.data) :
    wrapText f avail para = specWrapParagraph f avail (pySplit para) := by
  have hlines : pyLines para = [para] := pyLines_single_of_no_newline para hnl
  obtain ⟨w, ws, hws⟩ : ∃ w ws, pySplit para = w :: ws := by
    cases h : pySplit para with
    | nil => exact absurd h (pySplit_ne_nil para hb)
    | cons w ws => exact ⟨w, ws, rfl⟩
  unfold wrapText
  rw [hlines]
  simp only [List.foldl_cons, List.foldl_nil, hb, Bool.false_eq_true, if_false, hws]
  rw [wrapWords_eq_specFold f avail (w :: ws) "" []]
  rfl

theorem C4_greedy_wrap_paragraph_witness :
    isBlank "aaaaaaaaaa bb cc dd" = false ∧
    '\n' ∉ ("aaaaaaaaaa bb cc dd" : String).data ∧
    wrapText monoFont.w 8 "aaaaaaaaaa bb cc dd" =
      specWrapParagraph monoFont.w 8 (pySplit "aaaaaaaaaa bb cc dd") :=
  ⟨by decide, by decide,
    C4_greedy_wrap_paragraph monoFont.w 8 "aaaaaaaaaa bb cc dd" (by decide) (by decide)⟩

/-- Claim C7, counterexample to the claim as stated: with a measured
probe height of 13 and the default line spacing 1.2, the code computes
`line_height = int(13 * 1.2) = 15` (Python `int()` truncates), but the
claimed `round(13 * 1.2)` is 16.  The one-line text `"hi"` therefore
returns `text_height = 15`, not the claimed 16. -/
theorem C7_counterexample :
    (render_text monoFont "hi" "left" "top" 10 6 5 8).textHeight = 15 ∧
    lineHeight monoFont 6 5 = 15 ∧
    round ((monoFont.h "Ay" : ℚ) * (6 / 5)) = 16 ∧
    ((15 : Int) ≠ 16) := by
  refine ⟨by decide, by decide, ?_, by decide⟩
  have h1 : ((monoFont.h "Ay" : ℚ) * (6 / 5)) = 78 / 5 := by
    norm_num [monoFont]
  rw [h1, round_eq]
  have h2 : ((78 : ℚ) / 5 + 1 / 2) = 161 / 10 := by norm_num
  rw [h2]
  rw [Int.floor_eq_iff]
  norm_num

/-- Claim C7 as amended: `line_height` is the *truncation toward zero*
of the measured `"Ay"` height times the line spacing (Python `int()`,
not `round`); `text_height` is the final line count times `line_height`;
the block sits at `margin` for top, `122 - block - margin` for bottom
and `(122 - block) / 2` (floor division) for middle; each line of
measured width `w` sits at `margin` for left, `250 - w - margin` for
right and `(250 - w) / 2` for center; line `i` is drawn at
`v_offset + i * line_height`. -/
theorem enum_map_getElemBang {β : Type} [Inhabited β] (W : List String)
    (g : Nat × String → β) (i : Nat) (hi : i < W.length) :
    (W.enum.map g)[i]! = g (i, W[i]!) := by
  have h1 : i < (W.enum.map g).length := by simpa using hi
  rw [getElem!_pos (W.enum.map g) i h1, getElem!_pos W i hi]
  rw [List.getElem_map, List.getElem_enum]

theorem C7_metrics_placement (font : Font) (text ah av : String)
    (margin lsn lsd : Int) (maxLines : Nat)
    (hb : isBlank text = false)
    (hah : ah ∈ validH) (hav : av ∈ validV)
    (_hw : wrapText font.w (250 - 2 * margin) text ≠ []) :
    (render_text font text ah av margin lsn lsd maxLines).textHeight =
      ((truncateLines font.w (250 - 2 * margin) maxLines
          (wrapText font.w (250 - 2 * margin) text)).1.length : Int) *
        lineHeight font lsn lsd ∧
    (render_text font text ah av margin lsn lsd maxLines).draws.length =
      (truncateLines font.w (250 - 2 * margin) maxLines
        (wrapText font.w (250 - 2 * margin) text)).1.length ∧
    ∀ i, i < (truncateLines font.w (250 - 2 * margin) maxLines
        (wrapText font.w (250 - 2 * margin) text)).1.length →
      (render_text font text ah av margin lsn lsd maxLines).draws[i]! =
        (hOffset ah margin
          (font.w ((truncateLines font.w (250 - 2 * margin) maxLines
            (wrapText font.w (250 - 2 * margin) text)).1[i]!) : Int),
         vOffset av margin
            (((truncateLines font.w (250 - 2 * margin) maxLines
                (wrapText font.w (250 - 2 * margin) text)).1.length : Int) *
              lineHeight font lsn lsd) +
           (i : Int) * lineHeight font lsn lsd,
         (truncateLines font.w (250 - 2 * margin) maxLines
           (wrapText font.w (250 - 2 * margin) text)).1[i]!) := by
  rw [render_text_unfold font text ah av margin lsn lsd maxLines hb]
  rw [if_pos hah, if_pos hav]
  refine ⟨rfl, by simp, ?_⟩
  intro i hi
  dsimp only
  rw [enum_map_getElemBang _ _ i hi]

theorem C7_metrics_placement_witness :
    isBlank "hi" = false ∧ "left" ∈ validH ∧ "top" ∈ validV ∧
    wrapText monoFont.w (250 - 2 * 10) "hi" ≠ [] ∧
    (render_text monoFont "hi" "left" "top" 10 6 5 8).textHeight = 15 ∧
    (render_text monoFont "hi" "left" "top" 10 6 5 8).draws[0]! = (10, 10, "hi") := by
  refine ⟨by decide, by decide, by decide, by decide, ?_, ?_⟩
  · have h := C7_metrics_placement monoFont "hi" "left" "top" 10 6 5 8
      (by decide) (by decide) (by decide) (by decide)
    rw [h.1]
    decide
  · have h := C7_metrics_placement monoFont "hi" "left" "top" 10 6 5 8
      (by decide) (by decide) (by decide) (by decide)
    rw [h.2.2 0 (by decide)]
    decide

/-! ## Canvas pixel clipping (`EPDCanvas.pixel`, examples/epd_helper.py)

`EPDCanvas.pixel` performs the bounds check itself and delegates the
actual write to `self.gui.set_pixel`.  The `EPD_GUI` store lives in
epd_gui.py, outside the verified sources, so the underlying store and
its write operation are abstract here; the claim only concerns the
bounds check and the delegation. -/

structure EPDCanvas (Store : Type) where
  store : Store
  width : Int
  height : Int

/-- `EPDCanvas.pixel` (epd_helper.py lines 70-73): inside
`[0, width) x [0, height)` the write is delegated to the underlying
store; outside it, nothing happens and no error is raised (the function
is total). -/
def EPDCanvas.pixel {Store : Type} (setPix : Store → Int → Int → Int → Store)
    (c : EPDCanvas Store) (x y color : Int) : EPDCanvas Store :=
  if 0 ≤ x ∧ x < c.width ∧ 0 ≤ y ∧ y < c.height then
    { c with store := setPix c.store x y color }
  else c

/-- Claim C8: an out-of-bounds pixel write is a silent no-op leaving the
whole canvas unchanged, and an in-bounds write delegates to the
underlying store. -/
theorem C8_pixel_bounds {Store : Type} (setPix : Store → Int → Int → Int → Store)
    (c : EPDCanvas Store) (x y color : Int) :
    ((x < 0 ∨ c.width ≤ x ∨ y < 0 ∨ c.height ≤ y) →
      EPDCanvas.pixel setPix c x y color = c) ∧
    ((0 ≤ x ∧ x < c.width ∧ 0 ≤ y ∧ y < c.height) →
      EPDCanvas.pixel setPix c x y color =
        { c with store := setPix c.store x y color }) := by
  constructor
  · intro h
    unfold EPDCanvas.pixel
    rw [if_neg (by omega)]
  · intro h
    unfold EPDCanvas.pixel
    rw [if_pos h]

theorem C8_pixel_bounds_witness :
    ((-1 : Int) < 0 ∨ (122 : Int) ≤ -1 ∨ (5 : Int) < 0 ∨ (250 : Int) ≤ 5) ∧
    ((0 : Int) ≤ 3 ∧ (3 : Int) < 122 ∧ (0 : Int) ≤ 4 ∧ (4 : Int) < 250) ∧
    EPDCanvas.pixel (fun s x y col => (x, y, col) :: s)
      (⟨[], 122, 250⟩ : EPDCanvas (List (Int × Int × Int))) (-1) 5 1 =
      ⟨[], 122, 250⟩ ∧
    EPDCanvas.pixel (fun s x y col => (x, y, col) :: s)
      (⟨[], 122, 250⟩ : EPDCanvas (List (Int × Int × Int))) 3 4 1 =
      ⟨[(3, 4, 1)], 122, 250⟩ :=
  ⟨Or.inl (by norm_num), by norm_num,
    (C8_pixel_bounds (fun s x y col => (x, y, col) :: s) ⟨[], 122, 250⟩ (-1) 5 1).1
      (Or.inl (by norm_num)),
    (C8_pixel_bounds (fun s x y col => (x, y, col) :: s) ⟨[], 122, 250⟩ 3 4 1).2
      (by norm_num)⟩

/-! ## Font lookup (`load_font`, examples/epd_helper.py)

`FONT_REGISTRY` maps friendly names to candidate path lists; the first
bundled path is `os.path.join(_SCRIPT_DIR, ...)`, modelled with an
abstract `scriptDir` prefix.  Whether `ImageFont.truetype(path, size)`
succeeds is external I/O, abstracted by the predicate `loads`; a raised
`IOError`/`OSError` is a `loads path = false`.  The requested size only
parametrizes the font object, never the lookup order, so it is not
modelled. -/

def FONT_REGISTRY (scriptDir : String) : List (String × List String) :=
  [("misans", [scriptDir ++ "/MiSans-Light.ttf", "MiSans-Light.ttf"]),
   ("sans", ["/usr/share/fonts/truetype/dejavu/DejaVuSans.ttf",
             "/usr/share/fonts/TTF/DejaVuSans.ttf"]),
   ("sans-bold", ["/usr/share/fonts/truetype/dejavu/DejaVuSans-Bold.ttf",
                  "/usr/share/fonts/TTF/DejaVuSans-Bold.ttf"]),
   ("mono", ["/usr/share/fonts/truetype/dejavu/DejaVuSansMono.ttf",
             "/usr/share/fonts/TTF/DejaVuSansMono.ttf"]),
   ("mono-bold", ["/usr/share/fonts/truetype/dejavu/DejaVuSansMono-Bold.ttf",
                  "/usr/share/fonts/TTF/DejaVuSansMono-Bold.ttf"]),
   ("serif", ["/usr/share/fonts/truetype/dejavu/DejaVuSerif.ttf",
              "/usr/share/fonts/TTF/DejaVuSerif.ttf"]),
   ("serif-bold", ["/usr/share/fonts/truetype/dejavu/DejaVuSerif-Bold.ttf",
                   "/usr/share/fonts/TTF/DejaVuSerif-Bold.ttf"])]

def DEFAULT_FONT : String := "misans"

/-- The outcome of a font lookup: a loaded TrueType path, or the PIL
built-in default font. -/
inductive FontResult where
  | truetype (path : String)
  | builtin
deriving DecidableEq, Repr

/-- The first path of a candidate list that loads. -/
def firstLoading (loads : String → Bool) : List String → Option String
  | [] => none
  | p :: ps => if loads p then some p else firstLoading loads ps

/-- The candidate paths registered under a name, when the name is in the
registry. -/
def registryPaths (scriptDir : String) (name : String) : Option (List String) :=
  ((FONT_REGISTRY scriptDir).find? (fun e => e.1 = name)).map (fun e => e.2)

/-- `load_font` (epd_helper.py lines 156-188): try the requested (or
default, when `None`) name against its registered paths in order; on
failure fall back to the default font paths (only when the requested
name is not already the default); as a last resort return the built-in
default.  Every `truetype` failure is caught, so the lookup never
raises. -/
def load_font (scriptDir : String) (loads : String → Bool)
    (fontName : Option String) : FontResult :=
  match firstLoading loads ((registryPaths scriptDir (fontName.getD DEFAULT_FONT)).getD []) with
  | some p => FontResult.truetype p
  | none =>
    if fontName.getD DEFAULT_FONT ≠ DEFAULT_FONT then
      match registryPaths scriptDir DEFAULT_FONT with
      | some paths =>
        match firstLoading loads paths with
        | some p => FontResult.truetype p
        | none => FontResult.builtin
      | none => FontResult.builtin
    else FontResult.builtin

/-- Modelled from the spec (design note on ordered font-path fallback):
candidates of the requested name in listed order, then the candidates of
the default font in order, then the built-in default — first available
resource wins. -/
def specFontLookup (scriptDir : String) (loads : String → Bool)
    (fontName : Option String) : FontResult :=
  match firstLoading loads ((registryPaths scriptDir (fontName.getD DEFAULT_FONT)).getD []) with
  | some p => FontResult.truetype p
  | none =>
    match firstLoading loads ((registryPaths scriptDir DEFAULT_FONT).getD []) with
    | some p => FontResult.truetype p
    | none => FontResult.builtin

/-- Claim C9: the lookup returns the first loading path among the
candidates of the requested name, else the first loading path among the
candidates of the default font, else the built-in default — for every
load outcome and every requested name.  (When the requested name is the
default itself the code skips the redundant second pass; the outcome is
the same because the default candidates already failed.) -/
theorem C9_font_fallback (scriptDir : String) (loads : String → Bool)
    (fontName : Option String) :
    load_font scriptDir loads fontName = specFontLookup scriptDir loads fontName := by
  unfold load_font specFontLookup
  cases h1 : firstLoading loads
      ((registryPaths scriptDir (fontName.getD DEFAULT_FONT)).getD []) with
  | some p => rfl
  | none =>
    by_cases hd : fontName.getD DEFAULT_FONT ≠ DEFAULT_FONT
    · rw [if_pos hd]
      cases hr : registryPaths scriptDir DEFAULT_FONT with
      | some paths => cases h2 : firstLoading loads paths <;> simp [h2]
      | none => rfl
    · rw [if_neg hd]
      have heq : fontName.getD DEFAULT_FONT = DEFAULT_FONT := not_ne_iff.mp hd
      rw [heq] at h1
      rw [h1]

end EPD
